import Mathlib

/-!
Shallow embedding of the `task_4.py` batch report generator.

Conventions of the embedding:
* a pandas cell that can be missing (`NaN`) is an `Option`;
* Python strings are Lean `String`s, manipulated through `List Char`
  helpers that mirror the Python string methods used by the source
  (`strip`, `lower`, `replace`, substring test, digit filter);
* Python floats are modeled as exact rationals (`ℚ`);
* code that can raise an exception returns `Except String _`, the error
  payload naming the Python exception;
* the external collaborators (pandas datetime parsing, matplotlib
  rendering) are opaque function parameters, as in §6 of the design
  document;
* `networkx` connected components are computed by folding every edge of
  the identity graph into a partition of the node list (union of the two
  classes touched by the edge), which yields the same partition as
  `nx.connected_components`; the canonical representative of a class is
  the head of its member list (the source's `list(c)[0]` is likewise an
  implementation-defined member of the component).
-/

namespace Task4

/-! ### Python-style string helpers -/

/-- Python `str.strip()`: remove leading and trailing whitespace. -/
def pyStripChars (s : List Char) : List Char :=
  ((s.dropWhile Char.isWhitespace).reverse.dropWhile Char.isWhitespace).reverse

/-- Python `str.lower()` (ASCII case folding). -/
def lowerChars (s : List Char) : List Char := s.map Char.toLower

/-- Python substring containment `pat in s`. -/
def hasSub (pat : List Char) : List Char → Bool
  | [] => pat.isEmpty
  | c :: rest => pat.isPrefixOf (c :: rest) || hasSub pat rest

/-- Substring containment on `String`s. -/
def hasSubStr (pat s : String) : Bool := hasSub pat.toList s.toList

/-- Lower-casing on `String`s. -/
def lowerStr (s : String) : String := String.mk (lowerChars s.toList)

/-- Python `str.replace`: replace all non-overlapping occurrences, left to
right.  The numeric argument counts characters still to be skipped because
they belong to a match whose replacement has already been emitted. -/
def pyReplaceAux (pat rep : List Char) : ℕ → List Char → List Char
  | _, [] => []
  | 0, c :: rest =>
    if pat ≠ [] ∧ pat.isPrefixOf (c :: rest) then
      rep ++ pyReplaceAux pat rep (pat.length - 1) rest
    else
      c :: pyReplaceAux pat rep 0 rest
  | Nat.succ k, _ :: rest => pyReplaceAux pat rep k rest

/-- Python `s.replace(pat, rep)`. -/
def pyReplace (pat rep s : List Char) : List Char := pyReplaceAux pat rep 0 s

/-- Python `str(x)` for a possibly missing cell: `NaN` stringifies to `"nan"`. -/
def pyStr : Option String → String
  | none => "nan"
  | some s => s

/-- Python `", ".join(...)`. -/
def joinComma : List String → String
  | [] => ""
  | [x] => x
  | x :: y :: rest => x ++ ", " ++ joinComma (y :: rest)

/-- Deduplicate keeping the first occurrence of each element, skipping
elements already in `seen` (pandas `Series.unique` order). -/
def uniqueFirstFrom (seen : List String) : List String → List String
  | [] => []
  | x :: rest =>
    if x ∈ seen then uniqueFirstFrom seen rest
    else x :: uniqueFirstFrom (x :: seen) rest

/-- Deduplicate a list of strings keeping first occurrences. -/
def uniqueFirst (l : List String) : List String := uniqueFirstFrom [] l

/-! ### Value cleaners (`clean_price`, `clean_date_string`) -/

/-- Characters kept by `re.sub(r'[^\d.]', '', s)`. -/
def priceKeep (c : Char) : Bool := c.isDigit || decide (c = '.')

/-- Numeric value of a digit string. -/
def digitsToNat (l : List Char) : ℕ := l.foldl (fun a c => 10 * a + (c.toNat - 48)) 0

/-- Python `float(s)` restricted to strings made of digits and dots:
defined (`some`) exactly on a non-empty all-digit string, or on a string
with a single dot and at least one digit.  Everything else raises
`ValueError` in Python, here `none`. -/
def pyFloatDigits? (l : List Char) : Option ℚ :=
  if l.all Char.isDigit then
    if l = [] then none else some (digitsToNat l)
  else
    let ip := l.takeWhile (fun c => decide (c ≠ '.'))
    let rest := l.dropWhile (fun c => decide (c ≠ '.'))
    match rest with
    | '.' :: fp =>
      if ip.all Char.isDigit ∧ fp.all Char.isDigit ∧ (ip ≠ [] ∨ fp ≠ []) then
        some ((digitsToNat ip : ℚ) + (digitsToNat fp : ℚ) / (10 : ℚ) ^ fp.length)
      else none
    | _ => none

/-- Embedding of `clean_price` (task_4.py lines 107-113).  The input is the
stringified cell (`none` for a `NaN` cell); `1.2` is the exact rational
`12/10`.  A remainder that Python's `float` rejects (for example `"."`)
is the `ValueError` case. -/
def clean_price (value : Option String) : Except String ℚ :=
  match value with
  | none => Except.ok 0
  | some v =>
    let s_val := pyStripChars v.toList
    let multiplier : ℚ := if s_val.contains '€' then 12 / 10 else 1
    let clean_val := s_val.filter priceKeep
    if clean_val = [] then Except.ok 0
    else
      match pyFloatDigits? clean_val with
      | some q => Except.ok (q * multiplier)
      | none => Except.error "ValueError"

/-- Embedding of `clean_date_string` (task_4.py lines 116-119): a `NaN`
cell stringifies to `"nan"`; otherwise replace `"A.M."`, `"P.M."`, then
any remaining `".M."`, then strip whitespace. -/
def clean_date_string (date_str : Option String) : String :=
  match date_str with
  | none => "nan"
  | some s =>
    String.mk (pyStripChars
      (pyReplace ".M.".toList "M".toList
        (pyReplace "P.M.".toList "PM".toList
          (pyReplace "A.M.".toList "AM".toList s.toList))))

/-- The date cleaner on a present string cell. -/
def cleanDateStr (s : String) : String := clean_date_string (some s)

/-- True when a string contains none of the three marker substrings the
cleaner rewrites. -/
def dateMarkersAbsent (s : String) : Bool :=
  !(hasSub "A.M.".toList s.toList) && !(hasSub "P.M.".toList s.toList) &&
    !(hasSub ".M.".toList s.toList)

/-! ### Column-role resolution (task_4.py lines 177-184) -/

/-- Order-timestamp column: `'date' in c.lower() or 'timestamp' in c.lower()`. -/
def findDateCol (cols : List String) : Option String :=
  cols.find? (fun c => hasSubStr "date" (lowerStr c) || hasSubStr "timestamp" (lowerStr c))

/-- Unit-price column: `'price' in c.lower()`. -/
def findPriceCol (cols : List String) : Option String :=
  cols.find? (fun c => hasSubStr "price" (lowerStr c))

/-- Quantity column: `'qty' in c.lower() or 'quantity' in c.lower()`. -/
def findQtyCol (cols : List String) : Option String :=
  cols.find? (fun c => hasSubStr "qty" (lowerStr c) || hasSubStr "quantity" (lowerStr c))

/-- Item-reference column: `'item' in c or 'book' in c` (no lower-casing
in the source). -/
def findItemCol (cols : List String) : Option String :=
  cols.find? (fun c => hasSubStr "item" c || hasSubStr "book" c)

/-- User-reference column: `'user' in c` (no lower-casing in the source). -/
def findUserCol (cols : List String) : Option String :=
  cols.find? (fun c => hasSubStr "user" c)

/-- Catalog identifier column: `'id' in c` (no lower-casing in the source). -/
def findIdCol (cols : List String) : Option String :=
  cols.find? (fun c => hasSubStr "id" c)

/-- The `cols` dictionary of `process_dataset`: each role resolved by the
first matching column; a role with no matching column raises
`StopIteration` (fatal for the folder). -/
def resolveCols (orderCols bookCols : List String) : Except String (List String) :=
  match findDateCol orderCols, findPriceCol orderCols, findQtyCol orderCols,
      findItemCol orderCols, findUserCol orderCols, findIdCol bookCols with
  | some d, some p, some q, some i, some u, some b => Except.ok [d, p, q, i, u, b]
  | _, _, _, _, _, _ => Except.error "StopIteration"

/-! ### Identity reconciler (`reconciliate_users`, task_4.py lines 140-165) -/

/-- One row of `users.csv`; every field is a possibly missing string cell. -/
structure UserRow where
  id : Option String
  email : Option String
  phone : Option String
  address : Option String
deriving DecidableEq

/-- The three attribute categories of the `lookup` dictionary. -/
inductive Attr
  | email
  | phone
  | address
deriving DecidableEq

/-- Email normalization: `str(e).lower().strip()`. -/
def normEmail (s : String) : String := String.mk (pyStripChars (lowerChars s.toList))

/-- Phone normalization: `re.sub(r'\D', '', str(p))` (keep digits). -/
def normPhone (s : String) : String := String.mk (s.toList.filter Char.isDigit)

/-- Address normalization: `str(a).lower().strip()[:15]`. -/
def normAddress (s : String) : String :=
  String.mk ((pyStripChars (lowerChars s.toList)).take 15)

/-- Normalized fragment of one attribute of a user row (`none` for a
missing cell, mirroring the `props` list). -/
def fragOf : Attr → UserRow → Option String
  | Attr.email, u => u.email.map normEmail
  | Attr.phone, u => u.phone.map normPhone
  | Attr.address, u => u.address.map normAddress

/-- `users_df.dropna(subset=['id'])`, paired with the extracted id. -/
def validUsers (users : List UserRow) : List (String × UserRow) :=
  users.filterMap (fun u => u.id.map (fun i => (i, u)))

/-- Graph nodes: `valid_users['id'].unique()`. -/
def nodesOf (users : List UserRow) : List String :=
  uniqueFirst ((validUsers users).map Prod.fst)

/-- The list `lookup[a][v]`: ids of valid user rows whose normalized
attribute `a` equals `v`, in row order. -/
def groupList (users : List UserRow) (a : Attr) (v : String) : List String :=
  (validUsers users).filterMap
    (fun p => if fragOf a p.2 = some v then some p.1 else none)

/-- The keys of `lookup[a]`: normalized fragments that pass the
`len(val) > 4` guard, in first-seen order. -/
def keysOf (users : List UserRow) (a : Attr) : List String :=
  uniqueFirst
    (((validUsers users).filterMap (fun p => fragOf a p.2)).filter
      (fun v => decide (4 < v.length)))

/-- Edges added by `nx.add_path`: consecutive pairs of a list. -/
def pathEdges : List String → List (String × String)
  | a :: b :: rest => (a, b) :: pathEdges (b :: rest)
  | _ => []

/-- All edges of the identity graph, category by category, value by
value, guarded by `len(ids) > 1`. -/
def edgesOf (users : List UserRow) : List (String × String) :=
  ([Attr.email, Attr.phone, Attr.address]).flatMap (fun a =>
    (keysOf users a).flatMap (fun v =>
      let ids := groupList users a v
      if 1 < ids.length then pathEdges ids else []))

/-- First class of a partition containing `x`. -/
def findComp (comps : List (List String)) (x : String) : Option (List String) :=
  comps.find? (fun c => decide (x ∈ c))

/-- Merge the two classes touched by one edge (no-op for a self-edge or
an endpoint outside the partition). -/
def mergeEdge (comps : List (List String)) (e : String × String) : List (List String) :=
  match findComp comps e.1, findComp comps e.2 with
  | some c1, some c2 =>
    if c1 = c2 then comps
    else comps.filter (fun c => decide (c ≠ c1) && decide (c ≠ c2)) ++ [c1 ++ c2]
  | _, _ => comps

/-- Connected components of the identity graph, as a partition of the
node list (same partition as `nx.connected_components`). -/
def componentsOf (users : List UserRow) : List (List String) :=
  (edgesOf users).foldl mergeEdge ((nodesOf users).map (fun x => [x]))

/-- `id_map`: every member of a component maps to the component's
canonical representative (`list(c)[0]`). -/
def idMapOf (users : List UserRow) (x : String) : Option String :=
  (findComp (componentsOf users) x).bind List.head?

/-- `groups`: canonical representative to full member list. -/
def groupsOf (users : List UserRow) (k : String) : Option (List String) :=
  (componentsOf users).find? (fun c => decide (c.head? = some k))

/-- `len(comps)`: the unique-user count. -/
def uniqUsersCount (users : List UserRow) : ℕ := (componentsOf users).length

/-- The tuple returned by `reconciliate_users`. -/
def reconciliate_users (users : List UserRow) :
    ℕ × (String → Option String) × (String → Option (List String)) :=
  (uniqUsersCount users, idMapOf users, groupsOf users)

/-- Two ids lie in one class of the partition. -/
def SameComp (comps : List (List String)) (x y : String) : Prop :=
  ∃ c, c ∈ comps ∧ x ∈ c ∧ y ∈ c

/-- The classes of the partition are pairwise disjoint. -/
def DisjComps (comps : List (List String)) : Prop :=
  comps.Pairwise (fun c d => ∀ x, x ∈ c → x ∉ d)

/-- Partition invariant: pairwise disjoint non-empty classes. -/
def InvC (comps : List (List String)) : Prop :=
  DisjComps comps ∧ ∀ c ∈ comps, c ≠ []

/-! ### Author statistics (task_4.py lines 200-210) -/

/-- `astype(str).str.strip()` on an author cell. -/
def authorClean (a : Option String) : String := String.mk (pyStripChars (pyStr a).toList)

/-- `books['author_clean'].nunique()`: number of distinct cleaned author
strings (a missing author became the string `"nan"`, which counts). -/
def uniqAuthors (authors : List (Option String)) : ℕ :=
  ((authors.map authorClean).dedup).length

/-- Modelled from the spec: the unique-author count the specification
describes, namely the number of distinct cleaned author values excluding
the `"nan"` sentinel.  Stated only for comparison with `uniqAuthors`. -/
def specUniqAuthors (authors : List (Option String)) : ℕ :=
  (((authors.map authorClean).filter (fun s => decide (s ≠ "nan"))).dedup).length

/-! ### Dataset pipeline (task_4.py lines 168-226) -/

/-- One row of `orders.parquet` after column-role resolution: the five
role-matched cells. -/
structure OrderRow where
  dateRaw : Option String
  priceRaw : Option String
  qtyRaw : Option ℚ
  itemRaw : Option String
  userRaw : String
deriving DecidableEq

/-- One row of `books.yaml` after column normalization. -/
structure BookRow where
  idRaw : Option String
  author : Option String
deriving DecidableEq

/-- The catalog table; `hasAuthor` records whether an `author` column
exists. -/
structure BookTable where
  rows : List BookRow
  hasAuthor : Bool
deriving DecidableEq

/-- The per-folder result record assembled at the end of
`process_dataset`. -/
structure FolderResult where
  top_5 : List String
  uniq_u : ℕ
  uniq_a : ℕ
  pop_a : String
  best_ids_str : String
  chart : String
deriving DecidableEq

/-- `re.sub(r'\.0$', '', s)`. -/
def stripDotZero (s : String) : String :=
  if s.endsWith ".0" then s.dropRight 2 else s

/-- Join key of an id cell: stringify, then strip a trailing `".0"`. -/
def joinKey (v : Option String) : String := stripDotZero (pyStr v)

/-- Rows surviving timestamp cleaning, paired with the derived
`date_str` bucket; `parseDate` is the external
`pd.to_datetime(..., errors='coerce') … strftime('%Y-%m-%d')`
collaborator (`none` = `NaT`, the row is dropped). -/
def retainedOrders (parseDate : String → Option String) (orders : List OrderRow) :
    List (String × OrderRow) :=
  orders.filterMap (fun o =>
    (parseDate (clean_date_string o.dateRaw)).map (fun d => (d, o)))

/-- `orders['paid'] = qty.fillna(0) * price.apply(clean_price)`; a price
cell `clean_price` cannot parse aborts the folder. -/
def paidOf (retained : List (String × OrderRow)) :
    Except String (List (String × OrderRow × ℚ)) :=
  retained.mapM (fun p =>
    (clean_price p.2.priceRaw).map (fun pr => (p.1, p.2, p.2.qtyRaw.getD 0 * pr)))

/-- Insert into a key-ascending list. -/
def insertAsc (x : String × ℚ) : List (String × ℚ) → List (String × ℚ)
  | [] => [x]
  | y :: ys => if x.1 ≤ y.1 then x :: y :: ys else y :: insertAsc x ys

/-- Sort pairs by key ascending (pandas `groupby` key order). -/
def sortByKeyAsc (l : List (String × ℚ)) : List (String × ℚ) := l.foldr insertAsc []

/-- `groupby(key).sum()`: one pair per distinct key, keys ascending. -/
def sumBy (pairs : List (String × ℚ)) : List (String × ℚ) :=
  sortByKeyAsc ((uniqueFirst (pairs.map Prod.fst)).map (fun k =>
    (k, ((pairs.filter (fun p => decide (p.1 = k))).map Prod.snd).sum)))

/-- Insert into a value-descending list. -/
def insertDesc (x : String × ℚ) : List (String × ℚ) → List (String × ℚ)
  | [] => [x]
  | y :: ys => if y.2 ≤ x.2 then x :: y :: ys else y :: insertDesc x ys

/-- `groupby('date_str')['paid'].sum().sort_values(ascending=False)`. -/
def dailyRevenue (pairs : List (String × ℚ)) : List (String × ℚ) :=
  (sumBy pairs).foldr insertDesc []

/-- First pair attaining the maximal value (`Series.idxmax` keeps the
first occurrence of the maximum). -/
def idxmaxPair : List (String × ℚ) → Option (String × ℚ)
  | [] => none
  | p :: rest =>
    match idxmaxPair rest with
    | none => some p
    | some q => if p.2 < q.2 then some q else some p

/-- `Series.idxmax`: `none` is Python's
`ValueError: attempt to get argmax of an empty sequence`. -/
def idxmaxFirst (l : List (String × ℚ)) : Option String :=
  (idxmaxPair l).map Prod.fst

/-- `orders.merge(books, on='join_id', how='left')`: every retained order
paired with each matching book row, or with `none` when no book matches. -/
def mergedRows (retained : List (String × OrderRow)) (books : List BookRow) :
    List (OrderRow × Option BookRow) :=
  retained.flatMap (fun p =>
    let ms := books.filter (fun b => decide (joinKey b.idRaw = joinKey p.2.itemRaw))
    if ms.isEmpty then [(p.2, none)] else ms.map (fun b => (p.2, some b)))

/-- Most-popular author (task_4.py lines 206-210): among merged rows with
a cleaned author other than `"nan"`, the author with the greatest summed
quantity; `"Unknown"` when `merged` or the filtered sums are empty. -/
def popAuthorOf (merged : List (OrderRow × Option BookRow)) : String :=
  if merged.isEmpty then "Unknown"
  else
    let pairs := merged.filterMap (fun p =>
      let ac := authorClean (p.2.bind (fun b => b.author))
      if decide (ac ≠ "nan") then some (ac, p.1.qtyRaw.getD 0) else none)
    match idxmaxFirst (sumBy pairs) with
    | some a => a
    | none => "Unknown"

/-- `user_groups.get(top_buyer_id, [top_buyer_id])`. -/
def bestBuyerAliases (users : List UserRow) (tid : String) : List String :=
  (groupsOf users tid).getD [tid]

/-- `", ".join(map(str, best_buyer_aliases))`. -/
def bestBuyerStr (users : List UserRow) (tid : String) : String :=
  joinComma (bestBuyerAliases users tid)

/-- `generate_plot` (task_4.py lines 122-137): the empty series yields
the empty string; otherwise the external renderer is invoked on the
series sorted by day ascending. -/
def generate_plot (render : List (String × ℚ) → String)
    (series : List (String × ℚ)) : String :=
  if series.isEmpty then "" else render (sortByKeyAsc series)

/-- Embedding of the post-load portion of `process_dataset` (task_4.py
lines 186-226); file loading and column-role resolution are modeled
separately (`mainRun`, `resolveCols`), so this function receives typed
rows.  `parseDate` and `render` are the external collaborators. -/
def process_dataset (parseDate : String → Option String)
    (render : List (String × ℚ) → String)
    (users : List UserRow) (orders : List OrderRow) (books : BookTable) :
    Except String FolderResult :=
  let retained := retainedOrders parseDate orders
  match paidOf retained with
  | Except.error e => Except.error e
  | Except.ok paidRows =>
    let daily := dailyRevenue (paidRows.map (fun t => (t.1, t.2.2)))
    let uniqU := uniqUsersCount users
    let merged := mergedRows retained books.rows
    let uniqA := if books.hasAuthor then uniqAuthors (books.rows.map (fun b => b.author)) else 0
    let popA := if books.hasAuthor then popAuthorOf merged else "Unknown"
    let realUid := fun (o : OrderRow) => (idMapOf users o.userRaw).getD o.userRaw
    let buyerSums := sumBy (paidRows.map (fun t => (realUid t.2.1, t.2.2)))
    match idxmaxFirst buyerSums with
    | none => Except.error "ValueError"
    | some topBuyer =>
      Except.ok
        { top_5 := (daily.take 5).map Prod.fst
          uniq_u := uniqU
          uniq_a := uniqA
          pop_a := popA
          best_ids_str := bestBuyerStr users topBuyer
          chart := generate_plot render daily }

/-- Embedding of `main` (task_4.py lines 229-240): each element is the
outcome of `process_dataset` for one configured folder, in folder-list
order; an exception raised while processing a folder propagates and
aborts the whole run, so the report is produced only when every folder
succeeds. -/
def mainRun : List (Except String FolderResult) → Except String (List FolderResult)
  | [] => Except.ok []
  | Except.error e :: _ => Except.error e
  | Except.ok r :: rest =>
    match mainRun rest with
    | Except.ok rs => Except.ok (r :: rs)
    | Except.error e => Except.error e

/-- Modelled from the spec: the report assembler of §4.4/§7, which skips
folders whose pipeline failed and renders the successful results.
Stated only for comparison with `mainRun`. -/
def specRun (rs : List (Except String FolderResult)) : List FolderResult :=
  rs.filterMap (fun r =>
    match r with
    | Except.ok v => some v
    | Except.error _ => none)

/-! ### Run-dependent component enumeration

The source takes `list(c)[0]` and `list(c)` from a Python set produced
by `nx.connected_components`; the enumeration order of that set is a
property of one interpreter run (for string IDs it varies with hash
randomization).  Like `parseDate` and `render`, that order is modeled as
an opaque collaborator: an ordering oracle `ord` applied to a
component's member list, where a legitimate oracle returns a permutation
of its argument.  `idMapOf` and `groupsOf` above are the special case
of the identity oracle. -/

/-- `id_map` of one run: every member of a component maps to
`list(c)[0]`, the first element of the run's enumeration of `c`. -/
def idMapOfRun (ord : List String → List String) (users : List UserRow)
    (x : String) : Option String :=
  (findComp (componentsOf users) x).bind (fun c => (ord c).head?)

/-- `groups` of one run: the component whose enumeration starts at `k`,
in the run's enumeration order. -/
def groupsOfRun (ord : List String → List String) (users : List UserRow)
    (k : String) : Option (List String) :=
  ((componentsOf users).find? (fun c => decide ((ord c).head? = some k))).map ord

/-- The best-buyer alias string of one run
(`", ".join(user_groups.get(tid, [tid]))`). -/
def bestBuyerStrRun (ord : List String → List String) (users : List UserRow)
    (tid : String) : String :=
  joinComma ((groupsOfRun ord users tid).getD [tid])

/-- A two-user table merged by a shared normalized email of length 8:
one connected component `{"A", "B"}`. -/
def setOrderUsers : List UserRow :=
  [UserRow.mk (some "A") (some "a@b.cdef") none none,
    UserRow.mk (some "B") (some "a@b.cdef") none none]


/-! ## Theorems -/

/-! ### String-helper lemmas -/

theorem pyReplace_id (pat rep : List Char) :
    ∀ s, hasSub pat s = false → pyReplace pat rep s = s := by
  intro s
  unfold pyReplace
  induction s with
  | nil => intro _; rfl
  | cons c rest ih =>
    intro h
    simp only [hasSub, Bool.or_eq_false_iff] at h
    show pyReplaceAux pat rep 0 (c :: rest) = c :: rest
    rw [pyReplaceAux, if_neg]
    · exact congrArg (c :: ·) (ih h.2)
    · intro hc
      rw [h.1] at hc
      exact Bool.false_ne_true hc.2

theorem pyStripChars_eq (s : List Char) :
    pyStripChars s
      = List.rdropWhile Char.isWhitespace (List.dropWhile Char.isWhitespace s) := rfl

theorem dropWhile_eq_self_of_initialSeg {p : Char → Bool} :
    ∀ {l1 l2 : List Char}, l1 <+: l2 → List.dropWhile p l2 = l2 →
      List.dropWhile p l1 = l1 := by
  intro l1 l2 hpre hself
  cases l1 with
  | nil => rfl
  | cons a t =>
    obtain ⟨r, hr⟩ := hpre
    have hpa : p a = false := by
      by_contra hpa
      rw [Bool.not_eq_false] at hpa
      rw [← hr, List.cons_append, List.dropWhile_cons_of_pos hpa] at hself
      have hlen := congrArg List.length hself
      have hle : (List.dropWhile p (t ++ r)).length ≤ (t ++ r).length :=
        (List.dropWhile_suffix p).sublist.length_le
      simp only [List.length_cons] at hlen
      omega
    rw [List.dropWhile_cons_of_neg (by simp [hpa])]

theorem pyStripChars_idem (s : List Char) :
    pyStripChars (pyStripChars s) = pyStripChars s := by
  rw [pyStripChars_eq, pyStripChars_eq]
  rw [dropWhile_eq_self_of_initialSeg (List.rdropWhile_prefix _ _)
    (List.dropWhile_idempotent _ _)]
  exact List.rdropWhile_idempotent _ _

/-! ### Claim C4: idempotence of the date cleaner -/

/-- Claim C4 counterexample: the cleaner is not idempotent on every
string.  On `"A..M.."` the `".M."` rewrite manufactures a fresh
`"A.M."`, which a second application rewrites again. -/
theorem C4_counterexample :
    cleanDateStr (cleanDateStr "A..M..") ≠ cleanDateStr "A..M.." := by decide

/-- Claim C4, amended: `clean_date_string` is idempotent on every input
whose cleaned output contains none of the three marker substrings
`"A.M."`, `"P.M."`, `".M."` (in particular on the three examples named
by the specification), but not on every string. -/
theorem C4_amended :
    (∀ s, dateMarkersAbsent (cleanDateStr s) = true →
      cleanDateStr (cleanDateStr s) = cleanDateStr s)
    ∧ cleanDateStr "10.M. 2020" = "10M 2020"
    ∧ cleanDateStr "1 P.M." = "1 PM"
    ∧ cleanDateStr "1 A.M." = "1 AM" := by
  refine ⟨?_, by decide, by decide, by decide⟩
  intro s h
  simp only [dateMarkersAbsent, Bool.and_eq_true, Bool.not_eq_true'] at h
  obtain ⟨⟨hA, hP⟩, hM⟩ := h
  have hstep : cleanDateStr (cleanDateStr s)
      = String.mk (pyStripChars ((cleanDateStr s).toList)) := by
    show String.mk (pyStripChars
        (pyReplace ".M.".toList "M".toList
          (pyReplace "P.M.".toList "PM".toList
            (pyReplace "A.M.".toList "AM".toList (cleanDateStr s).toList)))) = _
    rw [pyReplace_id _ _ _ hA, pyReplace_id _ _ _ hP, pyReplace_id _ _ _ hM]
  rw [hstep]
  show String.mk (pyStripChars (pyStripChars
      (pyReplace ".M.".toList "M".toList
        (pyReplace "P.M.".toList "PM".toList
          (pyReplace "A.M.".toList "AM".toList s.toList))))) = _
  rw [pyStripChars_idem]
  rfl

/-- Claim C4 witness: the amended idempotence applied to the concrete
input `"1 P.M."`. -/
theorem C4_witness :
    dateMarkersAbsent (cleanDateStr "1 P.M.") = true
    ∧ cleanDateStr (cleanDateStr "1 P.M.") = cleanDateStr "1 P.M." :=
  ⟨by decide, C4_amended.1 "1 P.M." (by decide)⟩

/-! ### Claim C5: clean_price -/

/-- Claim C5 counterexample: the input `"."` contains no digit character
yet `clean_price` does not return `0.0` — the kept remainder `"."` makes
Python's `float` raise `ValueError`. -/
theorem C5_counterexample :
    clean_price (some ".") = Except.error "ValueError"
    ∧ (".".toList.all (fun c => !c.isDigit)) = true :=
  ⟨rfl, by decide⟩

/-- Claim C5, amended: null input yields `0.0`; an input whose stripped
form contains a Euro sign and parses yields the parsed value times
`1.2`, otherwise times `1.0`; an input whose kept digit-and-dot
remainder is empty yields `0.0` (an input with no digit but a non-empty
dot remainder instead raises `ValueError`); `"€10"` gives `12.0` and
`"$10"` gives `10.0`. -/
theorem C5_amended :
    clean_price none = Except.ok 0
    ∧ (∀ s q, (pyStripChars s.toList).contains '€' = true →
        pyFloatDigits? ((pyStripChars s.toList).filter priceKeep) = some q →
        clean_price (some s) = Except.ok (q * (12 / 10)))
    ∧ (∀ s q, (pyStripChars s.toList).contains '€' = false →
        pyFloatDigits? ((pyStripChars s.toList).filter priceKeep) = some q →
        clean_price (some s) = Except.ok q)
    ∧ (∀ s, (pyStripChars s.toList).filter priceKeep = [] →
        clean_price (some s) = Except.ok 0)
    ∧ clean_price (some "€10") = Except.ok 12
    ∧ clean_price (some "$10") = Except.ok 10 := by
  refine ⟨rfl, ?_, ?_, ?_, ?_, ?_⟩
  · intro s q hc hq
    have hne : (pyStripChars s.toList).filter priceKeep ≠ [] := by
      intro h0
      rw [h0] at hq
      simp [pyFloatDigits?] at hq
    simp only [clean_price]
    rw [if_neg hne, hq]
    show Except.ok (q * (if (pyStripChars s.toList).contains '€' = true
        then (12 : ℚ) / 10 else 1)) = _
    rw [if_pos hc]
  · intro s q hc hq
    have hne : (pyStripChars s.toList).filter priceKeep ≠ [] := by
      intro h0
      rw [h0] at hq
      simp [pyFloatDigits?] at hq
    simp only [clean_price]
    rw [if_neg hne, hq]
    show Except.ok (q * (if (pyStripChars s.toList).contains '€' = true
        then (12 : ℚ) / 10 else 1)) = _
    rw [if_neg (by rw [hc]; exact Bool.false_ne_true), mul_one]
  · intro s h0
    simp only [clean_price]
    rw [if_pos h0]
  · have h : clean_price (some "€10")
        = Except.ok (((digitsToNat ['1', '0'] : ℕ) : ℚ) * (12 / 10)) := rfl
    have hd : digitsToNat ['1', '0'] = 10 := by decide
    rw [h, hd]
    norm_num
  · have h : clean_price (some "$10")
        = Except.ok (((digitsToNat ['1', '0'] : ℕ) : ℚ) * 1) := rfl
    have hd : digitsToNat ['1', '0'] = 10 := by decide
    rw [h, hd]
    norm_num

/-- Claim C5 witness: the Euro branch of the amended claim applied to
the concrete input `"€10"`. -/
theorem C5_witness :
    (pyStripChars "€10".toList).contains '€' = true
    ∧ pyFloatDigits? ((pyStripChars "€10".toList).filter priceKeep) = some 10
    ∧ clean_price (some "€10") = Except.ok (10 * (12 / 10)) := by
  have hc : (pyStripChars "€10".toList).contains '€' = true := by decide
  have hp : pyFloatDigits? ((pyStripChars "€10".toList).filter priceKeep) = some 10 := by
    have h0 : pyFloatDigits? ((pyStripChars "€10".toList).filter priceKeep)
        = some ((digitsToNat ['1', '0'] : ℕ) : ℚ) := rfl
    have hd : digitsToNat ['1', '0'] = 10 := by decide
    rw [h0, hd]
    norm_num
  exact ⟨hc, hp, C5_amended.2.1 "€10" 10 hc hp⟩

/-! ### Claim C7: unique-author count -/

theorem dedup_length_split (b : String) :
    ∀ m : List String,
      m.dedup.length
        = (m.filter (fun s => decide (s ≠ b))).dedup.length
          + (if b ∈ m then 1 else 0) := by
  intro m
  induction m with
  | nil => simp
  | cons x m ih =>
    by_cases hxb : x = b
    · subst hxb
      rw [List.filter_cons_of_neg (by simp), if_pos (List.mem_cons_self x m)]
      by_cases hx : x ∈ m
      · rw [List.dedup_cons_of_mem hx]
        rw [if_pos hx] at ih
        omega
      · rw [List.dedup_cons_of_not_mem hx, List.length_cons]
        rw [if_neg hx] at ih
        omega
    · rw [List.filter_cons_of_pos (by simp [hxb])]
      have hbx : (b ∈ x :: m) ↔ (b ∈ m) := by
        constructor
        · intro h
          rcases List.mem_cons.mp h with h1 | h2
          · exact absurd h1.symm hxb
          · exact h2
        · exact List.mem_cons_of_mem x
      by_cases hbm : b ∈ m
      · rw [if_pos (hbx.mpr hbm), if_pos hbm] at *
        by_cases hx : x ∈ m
        · have hxf : x ∈ m.filter (fun s => decide (s ≠ b)) :=
            List.mem_filter.mpr ⟨hx, by simp [hxb]⟩
          rw [List.dedup_cons_of_mem hx, List.dedup_cons_of_mem hxf]
          omega
        · have hxf : x ∉ m.filter (fun s => decide (s ≠ b)) := fun hmem =>
            hx (List.mem_filter.mp hmem).1
          rw [List.dedup_cons_of_not_mem hx, List.dedup_cons_of_not_mem hxf,
            List.length_cons, List.length_cons]
          omega
      · rw [if_neg (fun h => hbm (hbx.mp h)), if_neg hbm] at *
        by_cases hx : x ∈ m
        · have hxf : x ∈ m.filter (fun s => decide (s ≠ b)) :=
            List.mem_filter.mpr ⟨hx, by simp [hxb]⟩
          rw [List.dedup_cons_of_mem hx, List.dedup_cons_of_mem hxf]
          omega
        · have hxf : x ∉ m.filter (fun s => decide (s ≠ b)) := fun hmem =>
            hx (List.mem_filter.mp hmem).1
          rw [List.dedup_cons_of_not_mem hx, List.dedup_cons_of_not_mem hxf,
            List.length_cons, List.length_cons]
          omega

/-- Claim C7 counterexample: a catalog with one missing author and one
real author.  `nunique` counts the stringified `"nan"` as a distinct
value (result 2), while the claim's non-`"nan"` count is 1. -/
theorem C7_counterexample :
    uniqAuthors [none, some "X"] = 2 ∧ specUniqAuthors [none, some "X"] = 1 := by decide

/-- Claim C7, amended: the unique-author count equals the number of
distinct stringified-and-trimmed author values with the `"nan"` sentinel
included — missing authors contribute one shared `"nan"` value — i.e. it
exceeds the claim's non-`"nan"` count by one exactly when some author
cell cleans to `"nan"`. -/
theorem C7_amended (authors : List (Option String)) :
    uniqAuthors authors
      = specUniqAuthors authors
        + (if "nan" ∈ authors.map authorClean then 1 else 0) :=
  dedup_length_split "nan" (authors.map authorClean)

/-! ### Claim C1: per-folder failure isolation -/

/-- Claim C1, evaluated at the failing input: a run whose first folder
raises a load error and whose second folder succeeds.  `main` propagates
the exception and aborts the whole run, while the specified assembler
(`specRun`) would still report the successful folder. -/
theorem C1_run_aborts :
    mainRun [Except.error "FileNotFoundError",
        Except.ok ⟨[], 0, 0, "Unknown", "", ""⟩]
      = Except.error "FileNotFoundError"
    ∧ specRun [Except.error "FileNotFoundError",
        Except.ok ⟨[], 0, 0, "Unknown", "", ""⟩]
      = [⟨[], 0, 0, "Unknown", "", ""⟩] :=
  ⟨rfl, rfl⟩

/-! ### Claim C6: column-role resolution -/

theorem find_isSome_iff {α : Type} (p : α → Bool) (l : List α) :
    (l.find? p).isSome = true ↔ ∃ c ∈ l, p c = true := by
  induction l with
  | nil => simp [List.find?]
  | cons a t ih =>
    by_cases h : p a = true
    · simp [List.find?, h]
    · simp only [List.find?, h]
      simp only [Bool.false_eq_true, if_false] at *
      rw [ih]
      simp [h]

/-- Claim C6 counterexample: with order columns
`["date", "price", "qty", "ITEM", "user"]` the item role finds no match
— `'item' in c` is case-sensitive in the source — and resolution fails,
although the claimed case-insensitive rule matches `"ITEM"`. -/
theorem C6_counterexample :
    resolveCols ["date", "price", "qty", "ITEM", "user"] ["id"]
      = Except.error "StopIteration"
    ∧ hasSubStr "item" (lowerStr "ITEM") = true :=
  ⟨rfl, by decide⟩

/-- Claim C6, amended: the timestamp, price and quantity roles are
resolved by case-insensitive substring match; the item-reference,
user-reference and catalog-identifier roles are resolved by
case-sensitive substring match; resolution fails exactly when some
required role has no matching column. -/
theorem C6_amended (orderCols bookCols : List String) :
    ((findDateCol orderCols).isSome ↔
      ∃ c ∈ orderCols, hasSubStr "date" (lowerStr c) = true
        ∨ hasSubStr "timestamp" (lowerStr c) = true)
    ∧ ((findPriceCol orderCols).isSome ↔
      ∃ c ∈ orderCols, hasSubStr "price" (lowerStr c) = true)
    ∧ ((findQtyCol orderCols).isSome ↔
      ∃ c ∈ orderCols, hasSubStr "qty" (lowerStr c) = true
        ∨ hasSubStr "quantity" (lowerStr c) = true)
    ∧ ((findItemCol orderCols).isSome ↔
      ∃ c ∈ orderCols, hasSubStr "item" c = true ∨ hasSubStr "book" c = true)
    ∧ ((findUserCol orderCols).isSome ↔ ∃ c ∈ orderCols, hasSubStr "user" c = true)
    ∧ ((findIdCol bookCols).isSome ↔ ∃ c ∈ bookCols, hasSubStr "id" c = true)
    ∧ ((∃ r, resolveCols orderCols bookCols = Except.ok r) ↔
      ((findDateCol orderCols).isSome ∧ (findPriceCol orderCols).isSome
        ∧ (findQtyCol orderCols).isSome ∧ (findItemCol orderCols).isSome
        ∧ (findUserCol orderCols).isSome ∧ (findIdCol bookCols).isSome)) := by
  refine ⟨?_, ?_, ?_, ?_, ?_, ?_, ?_⟩
  · rw [findDateCol, find_isSome_iff]
    simp
  · rw [findPriceCol, find_isSome_iff]
  · rw [findQtyCol, find_isSome_iff]
    simp
  · rw [findItemCol, find_isSome_iff]
    simp
  · rw [findUserCol, find_isSome_iff]
  · rw [findIdCol, find_isSome_iff]
  · unfold resolveCols
    cases hd : findDateCol orderCols <;>
      cases hp : findPriceCol orderCols <;>
        cases hq : findQtyCol orderCols <;>
          cases hi : findItemCol orderCols <;>
            cases hu : findUserCol orderCols <;>
              cases hb : findIdCol bookCols <;>
                simp



/-! ### Reconciler lemmas: deduplication, membership -/

theorem mem_uniqueFirstFrom (x : String) :
    ∀ (l seen : List String),
      x ∈ uniqueFirstFrom seen l ↔ (x ∈ l ∧ x ∉ seen) := by
  intro l
  induction l with
  | nil => intro seen; simp [uniqueFirstFrom]
  | cons a rest ih =>
    intro seen
    by_cases ha : a ∈ seen
    · rw [uniqueFirstFrom, if_pos ha, ih]
      constructor
      · intro ⟨h1, h2⟩
        exact ⟨List.mem_cons_of_mem _ h1, h2⟩
      · intro ⟨h1, h2⟩
        rcases List.mem_cons.mp h1 with h3 | h3
        · subst h3; exact absurd ha h2
        · exact ⟨h3, h2⟩
    · rw [uniqueFirstFrom, if_neg ha]
      constructor
      · intro h
        rcases List.mem_cons.mp h with h1 | h1
        · subst h1; exact ⟨List.mem_cons_self _ _, ha⟩
        · obtain ⟨h2, h3⟩ := (ih (a :: seen)).mp h1
          exact ⟨List.mem_cons_of_mem _ h2,
            fun hs => h3 (List.mem_cons_of_mem _ hs)⟩
      · intro ⟨h1, h2⟩
        rcases List.mem_cons.mp h1 with h3 | h3
        · subst h3; exact List.mem_cons_self _ _
        · by_cases hxa : x = a
          · subst hxa; exact List.mem_cons_self _ _
          · exact List.mem_cons_of_mem _ ((ih (a :: seen)).mpr
              ⟨h3, fun hs => (List.mem_cons.mp hs).elim hxa h2⟩)

theorem mem_uniqueFirst {x : String} {l : List String} :
    x ∈ uniqueFirst l ↔ x ∈ l := by
  rw [uniqueFirst, mem_uniqueFirstFrom]
  simp

theorem nodup_uniqueFirstFrom :
    ∀ (l seen : List String), (uniqueFirstFrom seen l).Nodup := by
  intro l
  induction l with
  | nil => intro seen; simp [uniqueFirstFrom]
  | cons a rest ih =>
    intro seen
    by_cases ha : a ∈ seen
    · rw [uniqueFirstFrom, if_pos ha]; exact ih seen
    · rw [uniqueFirstFrom, if_neg ha]
      refine List.nodup_cons.mpr ⟨?_, ih (a :: seen)⟩
      intro hmem
      exact ((mem_uniqueFirstFrom a rest (a :: seen)).mp hmem).2
        (List.mem_cons_self _ _)

theorem nodup_uniqueFirst (l : List String) : (uniqueFirst l).Nodup :=
  nodup_uniqueFirstFrom l []

theorem mem_validUsers {users : List UserRow} {x : String} {u : UserRow} :
    (x, u) ∈ validUsers users ↔ u ∈ users ∧ u.id = some x := by
  rw [validUsers, List.mem_filterMap]
  constructor
  · rintro ⟨w, hw, hmap⟩
    rw [Option.map_eq_some'] at hmap
    obtain ⟨i, hi, heq⟩ := hmap
    obtain ⟨h1, h2⟩ := Prod.mk.injEq .. ▸ heq
    exact ⟨h2 ▸ hw, by rw [h2] at hi; rw [hi, h1]⟩
  · rintro ⟨hu, hid⟩
    exact ⟨u, hu, by rw [hid]; rfl⟩

theorem mem_nodesOf {users : List UserRow} {x : String} :
    x ∈ nodesOf users ↔ ∃ u ∈ users, u.id = some x := by
  rw [nodesOf, mem_uniqueFirst]
  constructor
  · intro h
    obtain ⟨p, hp, hpx⟩ := List.mem_map.mp h
    have hp2 : (p.1, p.2) ∈ validUsers users := hp
    obtain ⟨hu, hid⟩ := mem_validUsers.mp hp2
    exact ⟨p.2, hu, by rw [hid, hpx]⟩
  · rintro ⟨u, hu, hid⟩
    exact List.mem_map.mpr ⟨(x, u), mem_validUsers.mpr ⟨hu, hid⟩, rfl⟩

theorem mem_groupList_intro {users : List UserRow} {u : UserRow}
    {a : Attr} {x v : String} (hu : u ∈ users) (hid : u.id = some x)
    (hf : fragOf a u = some v) : x ∈ groupList users a v := by
  rw [groupList, List.mem_filterMap]
  exact ⟨(x, u), mem_validUsers.mpr ⟨hu, hid⟩, by rw [if_pos hf]⟩

theorem groupList_sub_nodes {users : List UserRow} {a : Attr} {v x : String}
    (h : x ∈ groupList users a v) : x ∈ nodesOf users := by
  rw [groupList, List.mem_filterMap] at h
  obtain ⟨p, hp, hite⟩ := h
  by_cases hc : fragOf a p.2 = some v
  · rw [if_pos hc] at hite
    rw [nodesOf, mem_uniqueFirst]
    exact List.mem_map.mpr ⟨p, hp, Option.some.inj hite⟩
  · rw [if_neg hc] at hite
    exact absurd hite (Option.noConfusion)

theorem mem_keysOf_intro {users : List UserRow} {u : UserRow}
    {a : Attr} {x v : String} (hu : u ∈ users) (hid : u.id = some x)
    (hf : fragOf a u = some v) (hlen : 4 < v.length) : v ∈ keysOf users a := by
  rw [keysOf, mem_uniqueFirst, List.mem_filter]
  refine ⟨List.mem_filterMap.mpr ⟨(x, u), mem_validUsers.mpr ⟨hu, hid⟩, hf⟩, ?_⟩
  simp [hlen]

theorem keysOf_length {users : List UserRow} {a : Attr} {v : String}
    (h : v ∈ keysOf users a) : 4 < v.length := by
  rw [keysOf, mem_uniqueFirst, List.mem_filter] at h
  simpa using h.2

theorem pathEdges_mem :
    ∀ (l : List String) (e : String × String),
      e ∈ pathEdges l → e.1 ∈ l ∧ e.2 ∈ l
  | [], _, h => absurd h (by simp [pathEdges])
  | [_], _, h => absurd h (by simp [pathEdges])
  | a :: b :: rest, e, h => by
    rw [pathEdges] at h
    rcases List.mem_cons.mp h with h1 | h2
    · rw [h1]
      exact ⟨List.mem_cons_self _ _,
        List.mem_cons_of_mem _ (List.mem_cons_self _ _)⟩
    · have hrec := pathEdges_mem (b :: rest) e h2
      exact ⟨List.mem_cons_of_mem _ hrec.1, List.mem_cons_of_mem _ hrec.2⟩

theorem attr_mem_list (a : Attr) : a ∈ [Attr.email, Attr.phone, Attr.address] := by
  cases a <;> simp

theorem mem_edgesOf_intro {users : List UserRow} {a : Attr} {v : String}
    {e : String × String} (hv : v ∈ keysOf users a)
    (hlen : 1 < (groupList users a v).length)
    (he : e ∈ pathEdges (groupList users a v)) : e ∈ edgesOf users := by
  rw [edgesOf, List.mem_flatMap]
  refine ⟨a, attr_mem_list a, ?_⟩
  rw [List.mem_flatMap]
  exact ⟨v, hv, by rw [if_pos hlen]; exact he⟩

theorem mem_edgesOf_elim {users : List UserRow} {e : String × String}
    (h : e ∈ edgesOf users) :
    ∃ a v, v ∈ keysOf users a ∧ e ∈ pathEdges (groupList users a v) := by
  rw [edgesOf, List.mem_flatMap] at h
  obtain ⟨a, _, h2⟩ := h
  rw [List.mem_flatMap] at h2
  obtain ⟨v, hv, h3⟩ := h2
  by_cases hlen : 1 < (groupList users a v).length
  · rw [if_pos hlen] at h3
    exact ⟨a, v, hv, h3⟩
  · rw [if_neg hlen] at h3
    exact absurd h3 (by simp)

theorem edges_endpoints_nodes {users : List UserRow} {e : String × String}
    (h : e ∈ edgesOf users) :
    e.1 ∈ nodesOf users ∧ e.2 ∈ nodesOf users := by
  obtain ⟨a, v, _, he⟩ := mem_edgesOf_elim h
  have hm := pathEdges_mem _ _ he
  exact ⟨groupList_sub_nodes hm.1, groupList_sub_nodes hm.2⟩

/-! ### Partition lemmas -/

theorem findComp_mem {comps : List (List String)} {x : String} {c : List String}
    (h : findComp comps x = some c) : c ∈ comps ∧ x ∈ c := by
  have h1 := List.mem_of_find?_eq_some h
  have h2 := List.find?_some h
  simp only [decide_eq_true_eq] at h2
  exact ⟨h1, h2⟩

theorem findComp_isSome {comps : List (List String)} {x : String} {c : List String}
    (hc : c ∈ comps) (hx : x ∈ c) : (findComp comps x).isSome := by
  rw [findComp]
  exact (find_isSome_iff _ _).mpr ⟨c, hc, decide_eq_true hx⟩

theorem comp_unique {comps : List (List String)} :
    DisjComps comps → ∀ {c d : List String} {x : String},
      c ∈ comps → d ∈ comps → x ∈ c → x ∈ d → c = d := by
  induction comps with
  | nil => intro _ c d x hc; exact absurd hc (by simp)
  | cons h t ih =>
    intro hdisj c d x hc hd hxc hxd
    obtain ⟨hhead, htail⟩ := List.pairwise_cons.mp hdisj
    rcases List.mem_cons.mp hc with hc1 | hc1 <;>
      rcases List.mem_cons.mp hd with hd1 | hd1
    · rw [hc1, hd1]
    · subst hc1
      exact absurd hxd (hhead d hd1 x hxc)
    · subst hd1
      exact absurd hxc (hhead c hc1 x hxd)
    · exact ih htail hc1 hd1 hxc hxd

theorem disj_of_mem {comps : List (List String)} (hdisj : DisjComps comps)
    {c d : List String} (hc : c ∈ comps) (hd : d ∈ comps) (hne : c ≠ d) :
    ∀ x ∈ c, x ∉ d :=
  fun _ hxc hxd => hne (comp_unique hdisj hc hd hxc hxd)

theorem findComp_eq {comps : List (List String)} :
    DisjComps comps → ∀ {c : List String} {x : String},
      c ∈ comps → x ∈ c → findComp comps x = some c := by
  induction comps with
  | nil => intro _ c x hc; exact absurd hc (by simp)
  | cons h t ih =>
    intro hdisj c x hc hx
    by_cases hxh : x ∈ h
    · have heq : c = h := comp_unique hdisj hc (List.mem_cons_self _ _) hx hxh
      subst heq
      exact List.find?_cons_of_pos _ (by simp [hxh])
    · have hch : c ≠ h := fun heq => hxh (heq ▸ hx)
      have hct : c ∈ t := (List.mem_cons.mp hc).resolve_left hch
      have hstep : findComp (h :: t) x = findComp t x :=
        List.find?_cons_of_neg _ (by simp [hxh])
      rw [hstep]
      exact ih (List.pairwise_cons.mp hdisj).2 hct hx

theorem sameComp_symm {comps : List (List String)} {x y : String}
    (h : SameComp comps x y) : SameComp comps y x := by
  obtain ⟨c, hc, hx, hy⟩ := h
  exact ⟨c, hc, hy, hx⟩

theorem sameComp_trans {comps : List (List String)} (hdisj : DisjComps comps)
    {x y z : String} (h1 : SameComp comps x y) (h2 : SameComp comps y z) :
    SameComp comps x z := by
  obtain ⟨c, hc, hx, hy⟩ := h1
  obtain ⟨d, hd, hy2, hz⟩ := h2
  rw [comp_unique hdisj hc hd hy hy2] at hx
  exact ⟨d, hd, hx, hz⟩

theorem mergeEdge_eq_of_some {comps : List (List String)} {e : String × String}
    {c1 c2 : List String} (h1 : findComp comps e.1 = some c1)
    (h2 : findComp comps e.2 = some c2) :
    mergeEdge comps e = if c1 = c2 then comps
      else comps.filter (fun c => decide (c ≠ c1) && decide (c ≠ c2)) ++ [c1 ++ c2] := by
  rw [mergeEdge, h1, h2]

theorem mergeEdge_eq_none_left {comps : List (List String)} {e : String × String}
    (h1 : findComp comps e.1 = none) : mergeEdge comps e = comps := by
  rw [mergeEdge, h1]

theorem mergeEdge_eq_none_right {comps : List (List String)} {e : String × String}
    {c1 : List String} (h1 : findComp comps e.1 = some c1)
    (h2 : findComp comps e.2 = none) : mergeEdge comps e = comps := by
  rw [mergeEdge, h1, h2]

theorem sameComp_mergeEdge {comps : List (List String)} {x y : String}
    (e : String × String) (h : SameComp comps x y) :
    SameComp (mergeEdge comps e) x y := by
  obtain ⟨c, hc, hx, hy⟩ := h
  cases h1 : findComp comps e.1 with
  | none => rw [mergeEdge_eq_none_left h1]; exact ⟨c, hc, hx, hy⟩
  | some c1 =>
    cases h2 : findComp comps e.2 with
    | none => rw [mergeEdge_eq_none_right h1 h2]; exact ⟨c, hc, hx, hy⟩
    | some c2 =>
      rw [mergeEdge_eq_of_some h1 h2]
      by_cases hcc : c1 = c2
      · rw [if_pos hcc]
        exact ⟨c, hc, hx, hy⟩
      · rw [if_neg hcc]
        by_cases hc1 : c = c1
        · refine ⟨c1 ++ c2, ?_, ?_, ?_⟩
          · exact List.mem_append_right _ (List.mem_singleton.mpr rfl)
          · exact List.mem_append_left _ (hc1 ▸ hx)
          · exact List.mem_append_left _ (hc1 ▸ hy)
        · by_cases hc2 : c = c2
          · refine ⟨c1 ++ c2, ?_, ?_, ?_⟩
            · exact List.mem_append_right _ (List.mem_singleton.mpr rfl)
            · exact List.mem_append_right _ (hc2 ▸ hx)
            · exact List.mem_append_right _ (hc2 ▸ hy)
          · refine ⟨c, ?_, hx, hy⟩
            exact List.mem_append_left _
              (List.mem_filter.mpr ⟨hc, by simp [hc1, hc2]⟩)

theorem mergeEdge_processed {comps : List (List String)} {e : String × String}
    {c1 c2 : List String} (h1 : findComp comps e.1 = some c1)
    (h2 : findComp comps e.2 = some c2) :
    SameComp (mergeEdge comps e) e.1 e.2 := by
  have hm1 := findComp_mem h1
  have hm2 := findComp_mem h2
  rw [mergeEdge_eq_of_some h1 h2]
  by_cases hcc : c1 = c2
  · rw [if_pos hcc]
    exact ⟨c2, hm2.1, hcc ▸ hm1.2, hm2.2⟩
  · rw [if_neg hcc]
    refine ⟨c1 ++ c2, ?_, ?_, ?_⟩
    · exact List.mem_append_right _ (List.mem_singleton.mpr rfl)
    · exact List.mem_append_left _ hm1.2
    · exact List.mem_append_right _ hm2.2

theorem mergeEdge_invC {comps : List (List String)} (e : String × String)
    (h : InvC comps) : InvC (mergeEdge comps e) := by
  obtain ⟨hdisj, hne⟩ := h
  cases h1 : findComp comps e.1 with
  | none => rw [mergeEdge_eq_none_left h1]; exact ⟨hdisj, hne⟩
  | some c1 =>
    cases h2 : findComp comps e.2 with
    | none => rw [mergeEdge_eq_none_right h1 h2]; exact ⟨hdisj, hne⟩
    | some c2 =>
      rw [mergeEdge_eq_of_some h1 h2]
      by_cases hcc : c1 = c2
      · rw [if_pos hcc]
        exact ⟨hdisj, hne⟩
      · rw [if_neg hcc]
        have hm1 := findComp_mem h1
        have hm2 := findComp_mem h2
        constructor
        · rw [DisjComps, List.pairwise_append]
          refine ⟨hdisj.sublist (List.filter_sublist _), ?_, ?_⟩
          · exact List.pairwise_singleton _ _
          · intro cf hcf cd hcd x hxf
            rw [List.mem_singleton] at hcd
            subst hcd
            have hcfm := List.mem_filter.mp hcf
            have hne1 : cf ≠ c1 := by
              have := hcfm.2
              simp only [Bool.and_eq_true, decide_eq_true_eq] at this
              exact this.1
            have hne2 : cf ≠ c2 := by
              have := hcfm.2
              simp only [Bool.and_eq_true, decide_eq_true_eq] at this
              exact this.2
            intro hmem
            rcases List.mem_append.mp hmem with hm | hm
            · exact disj_of_mem hdisj hcfm.1 hm1.1 hne1 x hxf hm
            · exact disj_of_mem hdisj hcfm.1 hm2.1 hne2 x hxf hm
        · intro c hcm
          rcases List.mem_append.mp hcm with hm | hm
          · exact hne c (List.mem_filter.mp hm).1
          · rw [List.mem_singleton] at hm
            subst hm
            have := hne c1 hm1.1
            intro happ
            rw [List.append_eq_nil] at happ
            exact this happ.1

theorem foldl_mergeEdge_pres {P : List (List String) → Prop}
    (hP : ∀ comps e, P comps → P (mergeEdge comps e)) :
    ∀ (es : List (String × String)) (comps : List (List String)),
      P comps → P (es.foldl mergeEdge comps) := by
  intro es
  induction es with
  | nil => intro comps h; exact h
  | cons e rest ih =>
    intro comps h
    rw [List.foldl_cons]
    exact ih _ (hP _ _ h)

theorem sameComp_foldl_of_mem :
    ∀ (es : List (String × String)) (comps : List (List String))
      (e : String × String), e ∈ es →
      SameComp comps e.1 e.1 → SameComp comps e.2 e.2 →
      SameComp (es.foldl mergeEdge comps) e.1 e.2 := by
  intro es
  induction es with
  | nil => intro comps e he; exact absurd he (by simp)
  | cons f rest ih =>
    intro comps e he hcov1 hcov2
    rw [List.foldl_cons]
    rcases List.mem_cons.mp he with h1 | h1
    · subst h1
      obtain ⟨c1, hc1, hx1, _⟩ := hcov1
      obtain ⟨c2, hc2, hx2, _⟩ := hcov2
      obtain ⟨d1, hd1⟩ := Option.isSome_iff_exists.mp (findComp_isSome hc1 hx1)
      obtain ⟨d2, hd2⟩ := Option.isSome_iff_exists.mp (findComp_isSome hc2 hx2)
      exact @foldl_mergeEdge_pres (fun cs => SameComp cs e.1 e.2)
        (fun _ g h => sameComp_mergeEdge g h) rest _
        (mergeEdge_processed hd1 hd2)
    · exact ih _ e h1 (sameComp_mergeEdge f hcov1) (sameComp_mergeEdge f hcov2)



/-! ### Final-partition lemmas -/

theorem invC_init (users : List UserRow) :
    InvC ((nodesOf users).map (fun x => [x])) := by
  constructor
  · rw [DisjComps, List.pairwise_map]
    refine (nodup_uniqueFirst _).imp ?_
    intro a b hab x hxa hxb
    rw [List.mem_singleton] at hxa hxb
    exact hab (hxa ▸ hxb ▸ rfl)
  · intro c hc
    obtain ⟨x, _, hx⟩ := List.mem_map.mp hc
    rw [← hx]
    simp

theorem invC_final (users : List UserRow) : InvC (componentsOf users) :=
  foldl_mergeEdge_pres (fun _ e h => mergeEdge_invC e h) _ _ (invC_init users)

theorem covered_init {users : List UserRow} {x : String}
    (hx : x ∈ nodesOf users) :
    SameComp ((nodesOf users).map (fun y => [y])) x x :=
  ⟨[x], List.mem_map.mpr ⟨x, hx, rfl⟩, List.mem_singleton.mpr rfl,
    List.mem_singleton.mpr rfl⟩

theorem covered_final {users : List UserRow} {x : String}
    (hx : x ∈ nodesOf users) : SameComp (componentsOf users) x x :=
  @foldl_mergeEdge_pres (fun cs => SameComp cs x x)
    (fun _ e h => sameComp_mergeEdge e h) _ _ (covered_init hx)

theorem edge_sameComp_final {users : List UserRow} {e : String × String}
    (he : e ∈ edgesOf users) : SameComp (componentsOf users) e.1 e.2 := by
  have hn := edges_endpoints_nodes he
  exact sameComp_foldl_of_mem _ _ e he (covered_init hn.1) (covered_init hn.2)

theorem sameComp_chain {comps : List (List String)} (hdisj : DisjComps comps) :
    ∀ (t : List String) (a : String),
      (∀ e ∈ pathEdges (a :: t), SameComp comps e.1 e.2) →
      (∀ x ∈ a :: t, SameComp comps x x) →
      ∀ x ∈ a :: t, SameComp comps a x := by
  intro t
  induction t with
  | nil =>
    intro a _ hcov x hx
    rw [List.mem_singleton] at hx
    subst hx
    exact hcov x (List.mem_singleton.mpr rfl)
  | cons b t ih =>
    intro a he hcov x hx
    have hab : SameComp comps a b := by
      have := he (a, b) (by rw [pathEdges]; exact List.mem_cons_self _ _)
      exact this
    rcases List.mem_cons.mp hx with h1 | h1
    · subst h1
      exact hcov x (List.mem_cons_self _ _)
    · have hb : ∀ y ∈ b :: t, SameComp comps b y :=
        ih b (fun e heb => he e (by rw [pathEdges]; exact List.mem_cons_of_mem _ heb))
          (fun y hy => hcov y (List.mem_cons_of_mem _ hy))
      exact sameComp_trans hdisj hab (hb x h1)

theorem idMapOf_eq_of_sameComp {users : List UserRow} {x y : String}
    (h : SameComp (componentsOf users) x y) :
    idMapOf users x = idMapOf users y ∧ (idMapOf users x).isSome := by
  obtain ⟨c, hc, hx, hy⟩ := h
  have hinv := invC_final users
  have h1 : findComp (componentsOf users) x = some c := findComp_eq hinv.1 hc hx
  have h2 : findComp (componentsOf users) y = some c := findComp_eq hinv.1 hc hy
  rw [idMapOf, idMapOf, h1, h2]
  refine ⟨rfl, ?_⟩
  have hne := hinv.2 c hc
  cases c with
  | nil => exact absurd rfl hne
  | cons c0 cs => simp

theorem one_lt_length_of_two_mem {l : List String} {x y : String}
    (hx : x ∈ l) (hy : y ∈ l) (hne : x ≠ y) : 1 < l.length := by
  cases l with
  | nil => exact absurd hx (by simp)
  | cons a t =>
    cases t with
    | nil =>
      rw [List.mem_singleton] at hx hy
      exact absurd (hx.trans hy.symm) hne
    | cons b t2 => simp

/-! ### Claim C2: totality and idempotence of the canonical-ID map -/

/-- Claim C2: for every user table, every user ID occurring with a
non-null id is assigned a canonical ID; the assignment is a function, and
it is idempotent (the canonical ID of a canonical ID is itself); an ID
that shares no long-enough normalized fragment with any other row is its
own canonical ID. -/
theorem C2_reconciler_total_idempotent (users : List UserRow) (x : String) :
    ((∃ u ∈ users, u.id = some x) → ∃ cid, idMapOf users x = some cid)
    ∧ (∀ y, idMapOf users x = some y → idMapOf users y = some y)
    ∧ ((∃ u ∈ users, u.id = some x) →
        (∀ a v, 4 < v.length → x ∈ groupList users a v →
          groupList users a v = [x]) →
        idMapOf users x = some x) := by
  refine ⟨?_, ?_, ?_⟩
  · intro hex
    have hx : x ∈ nodesOf users := mem_nodesOf.mpr hex
    have := (idMapOf_eq_of_sameComp (covered_final hx)).2
    exact Option.isSome_iff_exists.mp this
  · intro y hy
    rw [idMapOf] at hy
    cases hf : findComp (componentsOf users) x with
    | none => rw [hf] at hy; exact absurd hy (by simp)
    | some c =>
      rw [hf] at hy
      have hyc : y ∈ c := by
        cases c with
        | nil => exact absurd hy (by simp)
        | cons c0 cs =>
          simp only [Option.bind, List.head?] at hy
          rw [List.mem_cons]
          exact Or.inl (Option.some.inj hy).symm
      have hcm := (findComp_mem hf).1
      have hinv := invC_final users
      rw [idMapOf, findComp_eq hinv.1 hcm hyc]
      exact hy
  · intro hex hsolo
    have hx : x ∈ nodesOf users := mem_nodesOf.mpr hex
    have havoid : ∀ e ∈ edgesOf users, e.1 ≠ x ∧ e.2 ≠ x := by
      intro e he
      obtain ⟨a, v, hv, hpe⟩ := mem_edgesOf_elim he
      have hm := pathEdges_mem _ _ hpe
      have hpx : pathEdges [x] = ([] : List (String × String)) := rfl
      constructor
      · intro h1
        have hgl : groupList users a v = [x] :=
          hsolo a v (keysOf_length hv) (h1 ▸ hm.1)
        rw [hgl, hpx] at hpe
        exact absurd hpe (by simp)
      · intro h2
        have hgl : groupList users a v = [x] :=
          hsolo a v (keysOf_length hv) (h2 ▸ hm.2)
        rw [hgl, hpx] at hpe
        exact absurd hpe (by simp)
    have hsingle : ∀ (es : List (String × String)) (comps : List (List String)),
        (∀ e ∈ es, e.1 ≠ x ∧ e.2 ≠ x) → [x] ∈ comps →
        [x] ∈ es.foldl mergeEdge comps := by
      intro es
      induction es with
      | nil => intro comps _ h; exact h
      | cons f rest ih =>
        intro comps hav hmem
        rw [List.foldl_cons]
        refine ih _ (fun e he => hav e (List.mem_cons_of_mem _ he)) ?_
        have hf := hav f (List.mem_cons_self _ _)
        cases h1 : findComp comps f.1 with
        | none => rw [mergeEdge_eq_none_left h1]; exact hmem
        | some c1 =>
          cases h2 : findComp comps f.2 with
          | none => rw [mergeEdge_eq_none_right h1 h2]; exact hmem
          | some c2 =>
            rw [mergeEdge_eq_of_some h1 h2]
            by_cases hcc : c1 = c2
            · rw [if_pos hcc]; exact hmem
            · rw [if_neg hcc]
              have hne1 : [x] ≠ c1 := by
                intro heq
                have := (findComp_mem h1).2
                rw [← heq, List.mem_singleton] at this
                exact hf.1 this
              have hne2 : [x] ≠ c2 := by
                intro heq
                have := (findComp_mem h2).2
                rw [← heq, List.mem_singleton] at this
                exact hf.2 this
              exact List.mem_append_left _
                (List.mem_filter.mpr ⟨hmem, by simp [hne1, hne2]⟩)
    have hinit : [x] ∈ (nodesOf users).map (fun y => [y]) :=
      List.mem_map.mpr ⟨x, hx, rfl⟩
    have hfin : [x] ∈ componentsOf users := hsingle _ _ havoid hinit
    have hinv := invC_final users
    rw [idMapOf, findComp_eq hinv.1 hfin (List.mem_singleton.mpr rfl)]
    rfl

/-- Claim C2 witness: a one-row table whose single user matches no one;
its id is mapped, idempotently, to itself. -/
theorem C2_witness :
    (∃ u ∈ [UserRow.mk (some "A") none none none], u.id = some "A")
    ∧ idMapOf [UserRow.mk (some "A") none none none] "A" = some "A" := by
  have h1 : ∃ u ∈ [UserRow.mk (some "A") none none none], u.id = some "A" :=
    ⟨UserRow.mk (some "A") none none none, List.mem_singleton.mpr rfl, rfl⟩
  have h2 : ∀ a v, 4 < v.length →
      "A" ∈ groupList [UserRow.mk (some "A") none none none] a v →
      groupList [UserRow.mk (some "A") none none none] a v = ["A"] := by
    intro a v _ hmem
    cases a <;> simp [groupList, validUsers, fragOf] at hmem
  exact ⟨h1, (C2_reconciler_total_idempotent _ "A").2.2 h1 h2⟩

/-! ### Claim C3: long shared emails merge, short shared fragments do not -/

/-- Claim C3: two users of the same table whose normalized emails agree
and exceed four characters receive the same canonical ID; in a two-user
table whose users share only fragments of length at most four, the two
ids receive distinct canonical IDs. -/
theorem C3_merge_rules :
    (∀ (users : List UserRow) (u1 u2 : UserRow) (x1 x2 e1 e2 : String),
      u1 ∈ users → u2 ∈ users → u1.id = some x1 → u2.id = some x2 →
      u1.email = some e1 → u2.email = some e2 →
      normEmail e1 = normEmail e2 → 4 < (normEmail e1).length →
      idMapOf users x1 = idMapOf users x2 ∧ (idMapOf users x1).isSome)
    ∧ (∀ (u1 u2 : UserRow) (x1 x2 : String),
      u1.id = some x1 → u2.id = some x2 → x1 ≠ x2 →
      (∀ a v, fragOf a u1 = some v → fragOf a u2 = some v → v.length ≤ 4) →
      idMapOf [u1, u2] x1 ≠ idMapOf [u1, u2] x2) := by
  constructor
  · intro users u1 u2 x1 x2 e1 e2 hu1 hu2 hid1 hid2 he1 he2 heq hlen
    have hf1 : fragOf Attr.email u1 = some (normEmail e1) := by
      rw [fragOf, he1]; rfl
    have hf2 : fragOf Attr.email u2 = some (normEmail e1) := by
      rw [fragOf, he2, Option.map_some']
      exact congrArg some heq.symm
    have hx1 : x1 ∈ groupList users Attr.email (normEmail e1) :=
      mem_groupList_intro hu1 hid1 hf1
    have hx2 : x2 ∈ groupList users Attr.email (normEmail e1) :=
      mem_groupList_intro hu2 hid2 hf2
    by_cases hxx : x1 = x2
    · subst hxx
      exact ⟨rfl, (idMapOf_eq_of_sameComp
        (covered_final (mem_nodesOf.mpr ⟨u1, hu1, hid1⟩))).2⟩
    · have hglen : 1 < (groupList users Attr.email (normEmail e1)).length :=
        one_lt_length_of_two_mem hx1 hx2 hxx
      have hv : normEmail e1 ∈ keysOf users Attr.email :=
        mem_keysOf_intro hu1 hid1 hf1 hlen
      have hedges : ∀ e ∈ pathEdges (groupList users Attr.email (normEmail e1)),
          SameComp (componentsOf users) e.1 e.2 := fun e he =>
        edge_sameComp_final (mem_edgesOf_intro hv hglen he)
      have hcov : ∀ y ∈ groupList users Attr.email (normEmail e1),
          SameComp (componentsOf users) y y := fun y hy =>
        covered_final (groupList_sub_nodes hy)
      have hdisj := (invC_final users).1
      cases hgl : groupList users Attr.email (normEmail e1) with
      | nil => rw [hgl] at hx1; exact absurd hx1 (by simp)
      | cons g t =>
        rw [hgl] at hedges hcov hx1 hx2
        have hchain := sameComp_chain hdisj t g hedges hcov
        have hsc : SameComp (componentsOf users) x1 x2 :=
          sameComp_trans hdisj (sameComp_symm (hchain x1 hx1)) (hchain x2 hx2)
        exact idMapOf_eq_of_sameComp hsc
  · intro u1 u2 x1 x2 hid1 hid2 hne hshort
    have hne2 : ¬x2 = x1 := fun h => hne h.symm
    have hvalid : validUsers [u1, u2] = [(x1, u1), (x2, u2)] := by
      rw [validUsers]
      simp [List.filterMap, hid1, hid2]
    have hnodes : nodesOf [u1, u2] = [x1, x2] := by
      rw [nodesOf, hvalid]
      show uniqueFirstFrom [] [x1, x2] = [x1, x2]
      rw [uniqueFirstFrom, if_neg (by simp)]
      rw [uniqueFirstFrom, if_neg (by simp [hne2])]
      rfl
    have hglshort : ∀ (a : Attr) (v : String), v ∈ keysOf [u1, u2] a →
        ¬(1 < (groupList [u1, u2] a v).length) := by
      intro a v hv
      have hvlen := keysOf_length hv
      rw [groupList, hvalid]
      by_cases h1 : fragOf a u1 = some v <;> by_cases h2 : fragOf a u2 = some v
      · exact absurd (hshort a v h1 h2) (by omega)
      · simp [List.filterMap, if_pos h1, if_neg h2]
      · simp [List.filterMap, if_neg h1, if_pos h2]
      · simp [List.filterMap, if_neg h1, if_neg h2]
    have hedges : edgesOf [u1, u2] = [] := by
      rw [edgesOf]
      rw [List.flatMap_eq_nil_iff]
      intro a _
      rw [List.flatMap_eq_nil_iff]
      intro v hv
      rw [if_neg (hglshort a v hv)]
    have hcomp : componentsOf [u1, u2] = [[x1], [x2]] := by
      rw [componentsOf, hedges, hnodes]
      rfl
    have hfind1 : findComp [[x1], [x2]] x1 = some [x1] :=
      List.find?_cons_of_pos _ (by simp)
    have hfind2 : findComp [[x1], [x2]] x2 = some [x2] := by
      have hstep : findComp [[x1], [x2]] x2 = findComp [[x2]] x2 :=
        List.find?_cons_of_neg _ (by simp [hne2])
      rw [hstep]
      exact List.find?_cons_of_pos _ (by simp)
    rw [idMapOf, idMapOf, hcomp, hfind1, hfind2]
    simp [hne]

/-- Claim C3 witness: a shared five-plus-character normalized email
merges two concrete users, and a shared three-character email does not. -/
theorem C3_witness :
    (normEmail "Alice@X.com " = normEmail "alice@x.com"
      ∧ 4 < (normEmail "Alice@X.com ").length
      ∧ idMapOf [UserRow.mk (some "A") (some "Alice@X.com ") none none,
          UserRow.mk (some "B") (some "alice@x.com") none none] "A"
        = idMapOf [UserRow.mk (some "A") (some "Alice@X.com ") none none,
            UserRow.mk (some "B") (some "alice@x.com") none none] "B")
    ∧ (("A" : String) ≠ "B"
      ∧ idMapOf [UserRow.mk (some "A") (some "a@b") none none,
          UserRow.mk (some "B") (some "a@b") none none] "A"
        ≠ idMapOf [UserRow.mk (some "A") (some "a@b") none none,
            UserRow.mk (some "B") (some "a@b") none none] "B") := by
  constructor
  · refine ⟨by decide, by decide, ?_⟩
    exact (C3_merge_rules.1
      [UserRow.mk (some "A") (some "Alice@X.com ") none none,
        UserRow.mk (some "B") (some "alice@x.com") none none]
      (UserRow.mk (some "A") (some "Alice@X.com ") none none)
      (UserRow.mk (some "B") (some "alice@x.com") none none)
      "A" "B" "Alice@X.com " "alice@x.com"
      (by simp) (by simp) rfl rfl rfl rfl (by decide) (by decide)).1
  · refine ⟨by decide, ?_⟩
    refine C3_merge_rules.2
      (UserRow.mk (some "A") (some "a@b") none none)
      (UserRow.mk (some "B") (some "a@b") none none)
      "A" "B" rfl rfl (by decide) ?_
    intro a v h1 h2
    cases a <;> simp [fragOf] at h1 h2
    · rw [← h1]
      decide



/-! ### Claim C8: empty order set after cleaning -/

/-- Claim C8, evaluated at the failing input: when every order row is
dropped by timestamp cleaning, the pipeline does not degrade gracefully —
`orders.groupby('real_uid')['paid'].sum().idxmax()` is the argmax of an
empty sequence and raises `ValueError`, aborting the folder before any
result record is assembled. -/
theorem C8_empty_orders_error (parseDate : String → Option String)
    (render : List (String × ℚ) → String) (users : List UserRow)
    (orders : List OrderRow) (books : BookTable)
    (h : retainedOrders parseDate orders = []) :
    process_dataset parseDate render users orders books
      = Except.error "ValueError" := by
  simp only [process_dataset, h]
  rfl

/-- Claim C8 witness: the empty-after-cleaning hypothesis holds for an
empty order table under a parser that parses nothing, and the pipeline
then raises. -/
theorem C8_witness :
    retainedOrders (fun _ => none) [] = []
    ∧ process_dataset (fun _ => none) (fun _ => "") [] [] (BookTable.mk [] false)
      = Except.error "ValueError" :=
  ⟨rfl, C8_empty_orders_error (fun _ => none) (fun _ => "") [] []
    (BookTable.mk [] false) rfl⟩

/-! ### Claim C10: best buyer whose ID is not a canonical key -/

/-- Claim C10: when the best buyer's resolved user ID is not a canonical
ID of the alias-group map, `user_groups.get(tid, [tid])` falls back to
the singleton list, and the rendered alias string is exactly that single
ID — no error, and non-empty whenever the ID itself is non-empty. -/
theorem C10_best_buyer_fallback (users : List UserRow) (tid : String)
    (h : groupsOf users tid = none) :
    bestBuyerStr users tid = tid ∧ (tid ≠ "" → bestBuyerStr users tid ≠ "") := by
  have hstr : bestBuyerStr users tid = tid := by
    rw [bestBuyerStr, bestBuyerAliases, h]
    rfl
  refine ⟨hstr, fun hne => ?_⟩
  rw [hstr]
  exact hne

/-- Claim C10 witness: an empty user table has no alias groups, and the
best-buyer string for the unmatched ID `"U7"` is `"U7"` itself. -/
theorem C10_witness :
    groupsOf [] "U7" = none ∧ bestBuyerStr [] "U7" = "U7" :=
  ⟨rfl, (C10_best_buyer_fallback [] "U7" rfl).1⟩

/-! ### Claim C9: cross-run determinism of the reconciler output -/

/-- Claim C9, evaluated at the failing input: two legitimate enumeration
orders of one merged component — the identity oracle and the reversing
oracle, both returning a permutation of their argument — give the same
inputs different canonical IDs and different, differently-ordered
best-buyer alias strings.  The reconciler's choice of representative and
the order of each alias list are exactly as deterministic as the runtime
set-iteration order behind `list(c)`, which the source does not sort. -/
theorem C9_canonical_depends_on_set_order :
    (∀ l : List String, List.Perm l l)
    ∧ (∀ l : List String, List.Perm l.reverse l)
    ∧ idMapOfRun (fun l => l) setOrderUsers "A" = some "A"
    ∧ idMapOfRun (fun l => l.reverse) setOrderUsers "A" = some "B"
    ∧ idMapOfRun (fun l => l) setOrderUsers "A"
      ≠ idMapOfRun (fun l => l.reverse) setOrderUsers "A"
    ∧ bestBuyerStrRun (fun l => l) setOrderUsers "A" = "A, B"
    ∧ bestBuyerStrRun (fun l => l.reverse) setOrderUsers "B" = "B, A"
    ∧ bestBuyerStrRun (fun l => l) setOrderUsers "A"
      ≠ bestBuyerStrRun (fun l => l.reverse) setOrderUsers "B" :=
  ⟨fun l => List.Perm.refl l, fun l => List.reverse_perm l,
    by decide, by decide, by decide, by decide, by decide, by decide⟩


end Task4
